import Mathlib

/-!
Verification of the Medilex prescription-entity extractor (src/ner/ner.py).

The Python module is embedded shallowly over `List Char`: each regular
expression of the source is translated into an explicit, executable matcher
with the same scanning order (leftmost match, alternation order, greedy
quantifiers, word boundaries), `str.replace` becomes a left-to-right
non-overlapping substitution, and `difflib.get_close_matches` is embedded
by implementing `SequenceMatcher`'s matching-blocks ratio (no junk
heuristic applies: the strings involved are far below the autojunk
threshold).  Floating-point ratio comparisons against the 0.6 cutoff are
modelled exactly by the rational comparison 10*M >= 3*T, which agrees with
the double-precision comparison for the small denominators that occur.
-/

namespace Medilex

set_option maxRecDepth 100000
set_option maxHeartbeats 2000000

/-- ASCII whitespace as matched by Python's regex class and str.strip. -/
def isSpaceChar (c : Char) : Bool :=
  c = ' ' || c = '\t' || c = '\n' || c = '\x0d' || c = '\x0b' || c = '\x0c'

/-- Word characters of the regex class (letters, digits, underscore). -/
def isWordChar (c : Char) : Bool :=
  c.isAlpha || c.isDigit || c = '_'

/-- Coerce a string literal to the character-list representation. -/
def S (s : String) : List Char := s.data

/-- Lowercase every character (Python str.lower on ASCII). -/
def lowerL (s : List Char) : List Char := s.map Char.toLower

/-- Uppercase every character (Python str.upper on ASCII). -/
def upperL (s : List Char) : List Char := s.map Char.toUpper

/-- Python str.strip(): drop whitespace from both ends. -/
def stripWs (s : List Char) : List Char :=
  ((s.dropWhile isSpaceChar).reverse.dropWhile isSpaceChar).reverse

/-- Python str.strip(chars): drop characters of the set from both ends. -/
def stripSet (cs : List Char) (s : List Char) : List Char :=
  ((s.dropWhile (cs.contains ·)).reverse.dropWhile (cs.contains ·)).reverse

/-- Whether pat occurs as a contiguous substring of s (Python `in`). -/
def containsSub (pat s : List Char) : Bool :=
  (List.range (s.length + 1)).any (fun i => pat.isPrefixOf (s.drop i))

/-- Case-insensitive prefix test against a (lowercase) pattern. -/
def startsWithCI : List Char → List Char → Bool
  | [], _ => true
  | _ :: _, [] => false
  | p :: ps, c :: cs => (c.toLower = p.toLower) && startsWithCI ps cs

/-- The regex word boundary between a left character (none at an edge)
and a right character: the two sides differ in word-character status. -/
def boundBetween (l r : Option Char) : Bool :=
  (match l with | some c => isWordChar c | none => false)
    != (match r with | some c => isWordChar c | none => false)

/-- Python str.replace: replace all non-overlapping occurrences,
scanning left to right and continuing after each replacement.  The fuel
argument only forces structural termination; it is always at least the
input length plus one, so the zero case is never reached. -/
def replaceAllF (pat rep : List Char) : Nat → List Char → List Char
  | 0, s => s
  | _ + 1, [] => []
  | fuel + 1, c :: cs =>
    match pat with
    | [] => c :: cs
    | p :: ps =>
      if (p :: ps).isPrefixOf (c :: cs) then
        rep ++ replaceAllF (p :: ps) rep fuel (cs.drop ps.length)
      else
        c :: replaceAllF (p :: ps) rep fuel cs

/-- Python str.replace over a whole string. -/
def replaceAll (pat rep s : List Char) : List Char :=
  replaceAllF pat rep (s.length + 1) s

/-- One scan step of `re.sub(r"\b1\s*ab\b", "1 tab", s, flags=re.I)`:
at the current position (given whether the previous original character is
a word character), replace a match of the pattern and continue after it. -/
def sub1abF : Nat → Bool → List Char → List Char
  | 0, _, s => s
  | _ + 1, _, [] => []
  | fuel + 1, prevW, c :: cs =>
    if !prevW && (c = '1' : Bool) &&
        (let k := (cs.takeWhile isSpaceChar).length
         startsWithCI (S "ab") (cs.drop k) &&
           boundBetween (some 'b') (cs.drop (k + 2)).head?) then
      S "1 tab" ++ sub1abF fuel true (cs.drop ((cs.takeWhile isSpaceChar).length + 2))
    else
      c :: sub1abF fuel (isWordChar c) cs

/-- The "1 ab" repair over a whole string. -/
def sub1ab (s : List Char) : List Char := sub1abF (s.length + 1) false s

/-- `re.sub(r"\s{2,}", " ", s)`: collapse runs of two or more whitespace
characters to a single space; a lone whitespace character is kept as is. -/
def collapseWsF : Nat → List Char → List Char
  | 0, s => s
  | _ + 1, [] => []
  | _ + 1, [c] => [c]
  | fuel + 1, c :: d :: cs =>
    if isSpaceChar c && isSpaceChar d then collapseWsF fuel (' ' :: cs)
    else c :: collapseWsF fuel (d :: cs)

/-- Whitespace-run collapse over a whole string. -/
def collapseWs (s : List Char) : List Char := collapseWsF (s.length + 1) s

/-- Digit test on an optional character (edge counts as non-digit). -/
def digitO : Option Char → Bool
  | some c => c.isDigit
  | none => false

/-- One of the lookaround substitutions such as
`re.sub(r"(?<=\d)[Oo](?=\d)", "0", s)`: a character of the class is
replaced when the neighbouring characters of the original string are both
digits.  The previous original character is threaded through. -/
def sbdGo (ts : List Char) (r : Char) : Option Char → List Char → List Char
  | _, [] => []
  | prev, c :: cs =>
    (if ts.contains c && digitO prev && digitO cs.head? then r else c)
      :: sbdGo ts r (some c) cs

/-- Digit-lookalike substitution over a whole line. -/
def sbd (ts : List Char) (r : Char) (s : List Char) : List Char :=
  sbdGo ts r none s

/-- The three digit-context corrections of `_normalize_line`, in source
order: O/o to 0, then I/l to 1, then Z/z to 2. -/
def digitPass (s : List Char) : List Char :=
  sbd (S "Zz") '2' (sbd (S "Il") '1' (sbd (S "Oo") '0' s))

/-- `_normalize_line` from src/ner/ner.py: typographic fixes, pipe fix,
OCR unit repairs, the "1 ab" repair, digit-context corrections, whitespace
collapse and strip, in exactly the source order. -/
def normalizeLine (line : List Char) : List Char :=
  let s := line
  let s := replaceAll (S "•") (S "-") s
  let s := replaceAll (S "—") (S "-") s
  let s := replaceAll (S "–") (S "-") s
  let s := replaceAll (S "|") (S "1") s
  let s := replaceAll (S " ag") (S " mg") s
  let s := replaceAll (S " m9") (S " mg") s
  let s := replaceAll (S "m9") (S "mg") s
  let s := replaceAll (S " my") (S " mg") s
  let s := replaceAll (S " rng") (S " mg") s
  let s := replaceAll (S " mg.") (S " mg") s
  let s := sub1ab s
  let s := digitPass s
  stripWs (collapseWs s)

/-! ### Regex matchers

Each compiled pattern of src/ner/ner.py becomes an explicit matcher with
the engine's semantics: leftmost match, alternatives in pattern order,
greedy quantifiers with backtracking, case-insensitive literals, and
word boundaries. -/

/-- The literal alternatives of FREQ_RE, in pattern order. -/
def FREQ_LITS : List (List Char) :=
  [S "OD", S "QD", S "BD", S "BID", S "TID", S "QID",
   S "HS", S "QHS", S "PRN", S "SOS"]

/-- Try one case-insensitive literal at the current position, requiring a
word boundary after it; returns the matched slice of the input. -/
def tryLitAt (lit : List Char) (s : List Char) : Option (List Char) :=
  if startsWithCI lit s &&
      boundBetween (s.take lit.length).getLast? (s.drop lit.length).head? then
    some (s.take lit.length)
  else none

/-- Try the numeric-interval alternative of FREQ_RE at this position:
a Q, one or more digits (greedy), an h, then a word boundary. -/
def tryQnhAt (s : List Char) : Option (List Char) :=
  match s with
  | [] => none
  | c :: cs =>
    if c.toLower = 'q' then
      let ds := cs.takeWhile Char.isDigit
      if ds.length = 0 then none
      else
        match cs.drop ds.length with
        | [] => none
        | h :: rest =>
          if h.toLower = 'h' && boundBetween (some h) rest.head? then
            some (c :: (ds ++ [h]))
          else none
    else none

/-- All FREQ_RE alternatives at one position, in pattern order. -/
def freqTryAt (s : List Char) : Option (List Char) :=
  FREQ_LITS.findSome? (fun lit => tryLitAt lit s) <|> tryQnhAt s

/-- FREQ_RE.search scan: the Bool argument records whether the previous
original character is a word character (a word boundary precedes the
match exactly when it is not, since every alternative starts with a
word character). -/
def freqSearchGo : Bool → List Char → Option (List Char)
  | _, [] => none
  | prevW, c :: cs =>
    (if !prevW then freqTryAt (c :: cs) else none)
      <|> freqSearchGo (isWordChar c) cs

/-- FREQ_RE.search: first frequency-code match (group 1) of the line. -/
def freqSearch (s : List Char) : Option (List Char) := freqSearchGo false s

/-- The dose units of DOSE_RE, in pattern order. -/
def DOSE_UNIT_LITS : List (List Char) :=
  [S "mg", S "mcg", S "g", S "ml", S "iu", S "units", S "%"]

/-- Unit alternation of DOSE_RE at one position (with the trailing word
boundary); pairs the number string with the matched unit slice. -/
def tryUnitAt (numStr : List Char) (s : List Char) :
    Option (List Char × List Char) :=
  DOSE_UNIT_LITS.findSome? fun u =>
    if startsWithCI u s &&
        boundBetween (s.take u.length).getLast? (s.drop u.length).head? then
      some (numStr, s.take u.length)
    else none

/-- Backtracking choices of the optional decimal part of DOSE_RE, in the
engine's order: two decimal digits, one, then no decimal part at all.
Each choice carries the consumed characters and the rest of the input. -/
def decOptions (r : List Char) : List (List Char × List Char) :=
  match r with
  | [] => [([], [])]
  | c :: ds =>
    if c = '.' then
      let k := (ds.takeWhile Char.isDigit).length
      (if 2 ≤ k then [('.' :: ds.take 2, ds.drop 2)] else [])
        ++ (if 1 ≤ k then [('.' :: ds.take 1, ds.drop 1)] else [])
        ++ [([], c :: ds)]
    else [([], c :: ds)]

/-- DOSE_RE at one position: one to four integer digits (greedy), the
optional decimal part, optional whitespace, then a unit with a trailing
word boundary.  Returns (group 1, group 2). -/
def tryDoseAt (s : List Char) : Option (List Char × List Char) :=
  let run := (s.takeWhile Char.isDigit).length
  ([4, 3, 2, 1].filter (· ≤ run)).findSome? fun k =>
    (decOptions (s.drop k)).findSome? fun dec =>
      let r2 := dec.2
      let r3 := r2.drop (r2.takeWhile isSpaceChar).length
      tryUnitAt (s.take k ++ dec.1) r3

/-- DOSE_RE.search scan (the match starts with a digit, a word
character, so the leading boundary holds exactly when the previous
character is not a word character). -/
def doseSearchGo : Bool → List Char → Option (List Char × List Char)
  | _, [] => none
  | prevW, c :: cs =>
    (if !prevW then tryDoseAt (c :: cs) else none)
      <|> doseSearchGo (isWordChar c) cs

/-- DOSE_RE.search: first dose match of the line. -/
def doseSearch (s : List Char) : Option (List Char × List Char) :=
  doseSearchGo false s

/-- The dose field as assembled in `_parse_line_to_med`:
number, one space, unit lowercased; empty when there is no match. -/
def doseFmt : Option (List Char × List Char) → List Char
  | none => []
  | some (n, u) => n ++ (' ' :: lowerL u)

/-- The frequency field as assembled in `_parse_line_to_med`: the
matched code uppercased, or empty when there is no match. -/
def freqFmt : Option (List Char) → List Char
  | some f => upperL f
  | none => []

/-- The FORM_RE alternatives (the optional groups expanded), each listed
before its shorter prefix exactly as the greedy engine tries them. -/
def FORM_LITS : List (List Char) :=
  [S "tab", S "tablet", S "cap", S "capsule", S "syrup", S "syr",
   S "suspension", S "susp", S "injection", S "inj", S "drops", S "drop"]

/-- FORM_RE at one position: some alternative matches with a trailing
word boundary. -/
def formTryAt (s : List Char) : Bool :=
  FORM_LITS.any fun u =>
    startsWithCI u s &&
      boundBetween (s.take u.length).getLast? (s.drop u.length).head?

/-- FORM_RE.search existence scan. -/
def formSearchGo : Bool → List Char → Bool
  | _, [] => false
  | prevW, c :: cs =>
    (!prevW && formTryAt (c :: cs)) || formSearchGo (isWordChar c) cs

/-- FORM_RE.search: whether a dosage-form word occurs in the line. -/
def formSearch (s : List Char) : Bool := formSearchGo false s

/-! ### Administrative-line filter -/

/-- ADMIN_KEYWORDS from src/ner/ner.py. -/
def ADMIN_KEYWORDS : List (List Char) :=
  [S "dea", S "lic", S "medical centre", S "medical center", S "hospital",
   S "name", S "address", S "age", S "date", S "signature", S "sign",
   S "doctor", S "dr", S "refill", S "label", S "stock", S "presc",
   S "usa", S "new york", S "street", S "avenue", S "road", S "ny",
   S "zip", S "wtx", S "adobe"]

/-- `re.fullmatch(r"[rx\W\d]{1,4}", low)`: every character is r, x, a
non-word character or a digit, and the length is between 1 and 4. -/
def rxTinyMatch (low : List Char) : Bool :=
  decide (1 ≤ low.length) && decide (low.length ≤ 4) &&
    low.all fun c => c = 'r' || c = 'x' || !isWordChar c || c.isDigit

/-- `_looks_like_admin_text` from src/ner/ner.py. -/
def looksLikeAdmin (line : List Char) : Bool :=
  let low := stripWs (lowerL line)
  if low.isEmpty then true
  else if ADMIN_KEYWORDS.any (fun k => containsSub k low) then true
  else if low.contains ',' &&
      !((doseSearch low).isSome || (freqSearch low).isSome || formSearch low)
    then true
  else if rxTinyMatch low then true
  else false

/-! ### Name-candidate extraction -/

/-- `re.match(r"([A-Za-z][A-Za-z\-]{2,})", left)`: a leading run of
letters and hyphens, starting with a letter, of length at least 3. -/
def reMatchName (l : List Char) : Option (List Char) :=
  match l with
  | [] => none
  | c :: cs =>
    if c.isAlpha then
      let r := cs.takeWhile fun d => d.isAlpha || d = '-'
      if 2 ≤ r.length then some (c :: r) else none
    else none

/-- The keyword alternatives removed from the name candidate by
`re.sub(r"\b(tab|tablet|cap|capsule|mg|mcg|g|ml|iu|units|%)\b", "", ...)`,
in pattern order. -/
def NAME_STRIP_LITS : List (List Char) :=
  [S "tab", S "tablet", S "cap", S "capsule", S "mg", S "mcg", S "g",
   S "ml", S "iu", S "units", S "%"]

/-- One scan of the keyword-removal substitution.  The Bool argument is
the word-character status of the previous original character; a match
needs a boundary on both sides and is replaced by nothing. -/
def stripKwF : Nat → Bool → List Char → List Char
  | 0, _, s => s
  | _ + 1, _, [] => []
  | fuel + 1, prevW, c :: cs =>
    match NAME_STRIP_LITS.findSome? (fun u =>
        if (prevW != isWordChar c) && startsWithCI u (c :: cs) &&
            boundBetween ((c :: cs).take u.length).getLast?
              ((c :: cs).drop u.length).head? then
          some u.length
        else none) with
    | some n =>
      stripKwF fuel (isWordChar (((c :: cs).take n).getLastD 'a')) (cs.drop (n - 1))
    | none => c :: stripKwF fuel (isWordChar c) cs

/-- The keyword-removal substitution over a whole candidate. -/
def stripKw (s : List Char) : List Char := stripKwF (s.length + 1) false s

/-- The name-candidate computation of `_parse_line_to_med`: the part of
the line before the first hyphen, stripped; its leading letter run when
the anchored match succeeds, the whole part otherwise; then keyword
removal and a final strip. -/
def namePartOf (s : List Char) : List Char :=
  let left := stripWs (s.takeWhile fun c => c != '-')
  let base :=
    match reMatchName left with
    | some r => r
    | none => left
  stripWs (stripKw base)

/-! ### difflib.SequenceMatcher and get_close_matches

`get_close_matches(q, CANON_MEDS_LOWER, n=1, cutoff=0.6)` keeps the
possibilities whose similarity ratio reaches the cutoff and returns the
best one.  The ratio is 2*M/T where M is the total size of the matching
blocks and T the combined length.  With no junk (the strings are tiny)
the longest-match extension loops of the Python code never fire, so the
matching blocks are fully described by the clipped common-run table
below.  Ratio comparisons are exact rational comparisons, which agree
with the floating-point ones at these tiny denominators. -/

/-- Length of the common run of equal characters of a and b ending at
positions (i, j), clipped so it never extends before alo/blo. -/
def clippedRun (a b : List Char) (alo blo : Nat) : Nat → Nat → Nat
  | i, j =>
    if i < alo ∨ j < blo then 0
    else
      match a.get? i, b.get? j with
      | some x, some y =>
        if x = y then
          match i, j with
          | 0, _ => 1
          | _ + 1, 0 => 1
          | i' + 1, j' + 1 => clippedRun a b alo blo i' j' + 1
        else 0
      | _, _ => 0

/-- SequenceMatcher.find_longest_match on the window
[alo, ahi) x [blo, bhi): the lexicographically first end pair whose run
is strictly longer than everything seen before it, i.e. the first block
of maximal size.  Returns (start in a, start in b, size). -/
def findLongestMatch (a b : List Char) (alo ahi blo bhi : Nat) :
    Nat × Nat × Nat :=
  let pairs := (List.range' alo (ahi - alo)).flatMap fun i =>
    (List.range' blo (bhi - blo)).map fun j => (i, j)
  pairs.foldl
    (fun best p =>
      let k := clippedRun a b alo blo p.1 p.2
      if best.2.2 < k then (p.1 + 1 - k, p.2 + 1 - k, k) else best)
    (alo, blo, 0)

/-- Total size of the matching blocks (the recursion of
get_matching_blocks, summed; block order does not matter for the sum).
The fuel bounds the recursion depth, which shrinks with the window. -/
def matchesSum (a b : List Char) : Nat → Nat → Nat → Nat → Nat → Nat
  | 0, _, _, _, _ => 0
  | fuel + 1, alo, ahi, blo, bhi =>
    let r := findLongestMatch a b alo ahi blo bhi
    if r.2.2 = 0 then 0
    else
      r.2.2 + matchesSum a b fuel alo r.1 blo r.2.1
        + matchesSum a b fuel (r.1 + r.2.2) ahi (r.2.1 + r.2.2) bhi

/-- M of SequenceMatcher.ratio for the full strings. -/
def matchesTotal (a b : List Char) : Nat :=
  matchesSum a b (a.length + b.length + 1) 0 a.length 0 b.length

/-- Python string comparison (code-point lexicographic). -/
def strLt : List Char → List Char → Bool
  | [], [] => false
  | [], _ :: _ => true
  | _ :: _, [] => false
  | c :: cs, d :: ds => if c = d then strLt cs ds else decide (c < d)

/-- CANON_MEDS from src/ner/ner.py. -/
def CANON_MEDS : List (List Char) :=
  [S "Betaloc", S "Dorzolamide", S "Cimetidine", S "Oxprenolol",
   S "Paracetamol", S "Acetaminophen", S "Ibuprofen", S "Amoxicillin",
   S "Aspirin", S "Cetirizine", S "Metformin", S "Ciprofloxacin",
   S "Azithromycin", S "Omeprazole", S "Atorvastatin", S "Lisinopril",
   S "Levothyroxine", S "Metoprolol", S "Amlodipine", S "Simvastatin",
   S "Losartan", S "Gabapentin", S "Hydrochlorothiazide", S "Prednisone",
   S "Montelukast", S "Sertraline", S "Furosemide", S "Pantoprazole"]

/-- The canonical names paired with their lowercase forms
(CANON_MEDS_LOWER entries are all distinct, so pair lookup coincides
with the index lookup of the source). -/
def CANON_PAIRS : List (List Char × List Char) :=
  CANON_MEDS.map fun m => (lowerL m, m)

/-- Is the first scored candidate strictly better: larger ratio
(cross-multiplied), or equal ratio and a larger candidate string, the
tuple order used by heapq.nlargest. -/
def betterScore (c b : Nat × Nat × List Char) : Bool :=
  decide (b.1 * c.2.1 < c.1 * b.2.1)
    || (decide (c.1 * b.2.1 = b.1 * c.2.1) && strLt b.2.2 c.2.2)

/-- get_close_matches(q, CANON_MEDS_LOWER, n=1, cutoff=0.6) followed by
the CANON_MEDS index lookup of the source: the canonical name whose
lowercase form has the best ratio with q, among those reaching the
cutoff (2*M/T at least 3/5, i.e. 10*M at least 3*T). -/
def getCloseCanon (q : List Char) : Option (List Char) :=
  let scored : List (Nat × Nat × List Char) := CANON_PAIRS.filterMap fun p =>
    let M := matchesTotal p.1 q
    let T := p.1.length + q.length
    if 3 * T ≤ 10 * M then some (M, T, p.1) else none
  ((scored.foldl
      (fun acc c =>
        match acc with
        | none => some c
        | some b => if betterScore c b then some c else some b)
      none).bind
    (fun r => (CANON_PAIRS.find? (fun p => p.1 == r.2.2)).map (·.2)))

/-- ALIASES from src/ner/ner.py. -/
def ALIASES : List (List Char × List Char) :=
  [(S "betsloe", S "Betaloc"), (S "beteloc", S "Betaloc"),
   (S "betaloc", S "Betaloc"), (S "vorzolaridum", S "Dorzolamide"),
   (S "dorzolamidum", S "Dorzolamide"), (S "oxprelel", S "Oxprenolol"),
   (S "oxprelol", S "Oxprenolol")]

/-- Dictionary lookup in ALIASES. -/
def aliasLookup (q : List Char) : Option (List Char) :=
  (ALIASES.find? (fun p => p.1 == q)).map (·.2)

/-- Exact lookup of a lowercase form in the canonical vocabulary. -/
def canonOfLower (q : List Char) : Option (List Char) :=
  (CANON_PAIRS.find? (fun p => p.1 == q)).map (·.2)

/-- Python str.title(): an alphabetic character is uppercased after a
non-alphabetic one and lowercased after an alphabetic one. -/
def pyTitleGo : Bool → List Char → List Char
  | _, [] => []
  | prevAlpha, c :: cs =>
    (if c.isAlpha then (if prevAlpha then c.toLower else c.toUpper) else c)
      :: pyTitleGo c.isAlpha cs

/-- Python str.title(). -/
def pyTitle (s : List Char) : List Char := pyTitleGo false s

/-- `re.split(r"[^\w]+", q)` without the empty fragments (they are
dropped by the length filter of the source anyway). -/
def wordTokensF : Nat → List Char → List (List Char)
  | 0, _ => []
  | _ + 1, [] => []
  | fuel + 1, c :: cs =>
    if isWordChar c then
      (c :: cs.takeWhile isWordChar)
        :: wordTokensF fuel (cs.drop (cs.takeWhile isWordChar).length)
    else wordTokensF fuel cs

/-- Word tokens of the whole candidate. -/
def wordTokens (s : List Char) : List (List Char) :=
  wordTokensF (s.length + 1) s

/-- Token-by-token fallback of `_fuzzy_canon`: alias lookup, then
approximate match, first hit wins. -/
def fuzzyCanonTok : List (List Char) → Option (List Char)
  | [] => none
  | t :: ts =>
    match aliasLookup t with
    | some v => some v
    | none =>
      match getCloseCanon t with
      | some v => some v
      | none => fuzzyCanonTok ts

/-- `_fuzzy_canon` from src/ner/ner.py. -/
def fuzzyCanon (name : List Char) : List Char :=
  let q := stripSet (S " .:-") (lowerL name)
  match aliasLookup q with
  | some v => v
  | none =>
    match canonOfLower q with
    | some v => v
    | none =>
      match getCloseCanon q with
      | some v => v
      | none =>
        match fuzzyCanonTok ((wordTokens q).filter (fun t => 2 < t.length)) with
        | some v => v
        | none => pyTitle name

/-! ### Parser and extractor -/

/-- One medication record as assembled by `_parse_line_to_med`. -/
structure MedRec where
  name : String
  dose : String
  freq : String
  freq_expanded : String
  route : String
  raw : String
deriving DecidableEq, Repr

/-- FREQ_MAP from src/ner/ner.py. -/
def FREQ_MAP : List (String × String) :=
  [("OD", "Once daily"), ("QD", "Once daily"), ("BD", "Twice daily"),
   ("BID", "Twice daily"), ("TID", "Three times daily"),
   ("QID", "Four times daily"), ("HS", "At bedtime"),
   ("QHS", "At bedtime"), ("PRN", "As needed"), ("SOS", "If necessary")]

/-- `FREQ_MAP.get(freq, freq)`. -/
def freqMapGet (k : String) : String :=
  ((FREQ_MAP.find? (fun p => p.1 == k)).map (·.2)).getD k

/-- The route heuristic of `_parse_line_to_med`. -/
def routeOf (s : List Char) : List Char :=
  if containsSub (S "tab") (lowerL s) then S "Oral (Tablet)"
  else if containsSub (S "inj") (lowerL s) then S "Injection"
  else S "Oral"

/-- The record assembled by `_parse_line_to_med` for the original line
and its normalized form (each field exactly as the source computes it;
the dose, frequency and name searches are pure, so recomputing them
equals the source's local bindings). -/
def mkMedRec (line s : List Char) : MedRec :=
  { name := String.mk (fuzzyCanon (namePartOf s))
    dose := String.mk (doseFmt (doseSearch s))
    freq := String.mk (freqFmt (freqSearch s))
    freq_expanded := freqMapGet (String.mk (freqFmt (freqSearch s)))
    route := String.mk (routeOf s)
    raw := String.mk line }

/-- `_parse_line_to_med` from src/ner/ner.py: reject admin noise, then
lines with none of the three instruction signals, then lines without a
name candidate, then canonical names that themselves look like admin
text; otherwise assemble the record. -/
def parseLineToMed (line : List Char) : Option MedRec :=
  let s := normalizeLine line
  if looksLikeAdmin s then none
  else if !((freqSearch s).isSome || (doseSearch s).isSome || formSearch s) then
    none
  else if (namePartOf s).isEmpty then none
  else if looksLikeAdmin (lowerL (fuzzyCanon (namePartOf s))) then none
  else some (mkMedRec line s)

/-- The ASCII line breaks recognised by Python str.splitlines. -/
def isLineBreakChar (c : Char) : Bool :=
  c = '\n' || c = '\x0d' || c = '\x0b' || c = '\x0c' ||
    c = '\x1c' || c = '\x1d' || c = '\x1e'

/-- Python str.splitlines (over the ASCII break set; a CR LF pair counts
as one break, and there is no trailing empty line). -/
def splitLinesF : Nat → List Char → List (List Char)
  | 0, _ => []
  | _ + 1, [] => []
  | fuel + 1, c :: cs =>
    let k := ((c :: cs).takeWhile (fun d => !isLineBreakChar d)).length
    let line := (c :: cs).take k
    match (c :: cs).drop k with
    | [] => [line]
    | '\x0d' :: '\n' :: rest2 => line :: splitLinesF fuel rest2
    | _ :: rest => line :: splitLinesF fuel rest

/-- Python str.splitlines over a whole text. -/
def splitLinesGo (s : List Char) : List (List Char) :=
  splitLinesF (s.length + 1) s

/-- The deduplication key `(m["name"].lower(), m["dose"], m["freq"])`. -/
def medKey (m : MedRec) : String × String × String :=
  (String.mk (lowerL m.name.data), m.dose, m.freq)

/-- The loop body of `_extract_meds`: skip blank lines, parse, keep a
record whose key has not been seen, remember its key. -/
def extractMedsGo : List (List Char) → List (String × String × String) → List MedRec
  | [], _ => []
  | l :: ls, seen =>
    if (stripWs l).isEmpty then extractMedsGo ls seen
    else
      match parseLineToMed l with
      | none => extractMedsGo ls seen
      | some m =>
        if seen.contains (medKey m) then extractMedsGo ls seen
        else m :: extractMedsGo ls (medKey m :: seen)

/-- `_extract_meds` from src/ner/ner.py. -/
def extractMeds (text : List Char) : List MedRec :=
  extractMedsGo (splitLinesGo text) []

/-- The mapping returned by `extract_entities`. -/
structure ExtractionResult where
  medications : List MedRec
  symptoms : List String
  diet : List String
deriving DecidableEq, Repr

/-- `extract_entities` from src/ner/ner.py. -/
def extract_entities (text : String) : ExtractionResult :=
  { medications := extractMeds (S text), symptoms := [], diet := [] }

/-! ### Specification-side definitions and sample data -/

/-- The six-line scenario of the testable-properties section of the
specification. -/
def specScenario : String :=
  "MEDICAL CENTRE\nBetaloc 100mg - 1 tab BID\nDorzolamidum 10 mg - 1 tab BID\nCimetidine 50 mg - 2 tabs TID\nOxprelel 50m9 - 1 tab QD\nREFILL 0 1 2 3 4 5 PRN"

/-- The lines of the demo prescription in the module's main block, the
sampled inputs of the repository. -/
def demoLines : List (List Char) :=
  [S "MEDICAL CENTRE",
   S "824 14th Street",
   S "New York, NY 91743, USA",
   S "Name John Smith     Age 34",
   S "Address 162 Example St, NY   Date 09-11-12",
   S "RX",
   S "Betaloc 100mg - 1 tab BID",
   S "Dorzolamidum 10 mg - 1 tab BID",
   S "Cimetidine 50 mg - 2 tabs TID",
   S "Oxprelel 50m9 - 1 tab QD",
   S "Dr. Steve Johnson",
   S "REFILL 0 1 2 3 4 5 PRN"]

/-- Rule 4 of the admin policy as claim C2 words it: the line consists
of the literal prefix rx followed by non-word characters and/or digits,
with total length at most 4. -/
def claimRule4 (low : List Char) : Bool :=
  (S "rx").isPrefixOf low &&
    (low.drop 2).all (fun c => !isWordChar c || c.isDigit) &&
    decide (low.length ≤ 4)

/-- The four-rule admin-noise policy exactly as claim C2 states it
(first matching rule decides; every rule yields noise, so the ordered
policy is the disjunction of the rules). -/
def claimAdminNoise (line : List Char) : Bool :=
  let low := stripWs (lowerL line)
  low.isEmpty
    || ADMIN_KEYWORDS.any (fun k => containsSub k low)
    || (low.contains ',' &&
        !((doseSearch low).isSome || (freqSearch low).isSome || formSearch low))
    || claimRule4 low

/-- The amended admin-noise policy: rule 4 accepts any line of one to
four characters, each of which is r, x, a non-word character or a
digit. -/
def adminNoiseAmended (line : List Char) : Bool :=
  let low := stripWs (lowerL line)
  low.isEmpty
    || ADMIN_KEYWORDS.any (fun k => containsSub k low)
    || (low.contains ',' &&
        !((doseSearch low).isSome || (freqSearch low).isSome || formSearch low))
    || rxTinyMatch low

/-- The dose pattern at one position as claim C5 words it, without the
word-boundary requirements of DOSE_RE: a number of one to four digits,
an optional decimal part of up to two digits, optional whitespace, then
a unit token of the fixed set. -/
def tryDoseClaimAt (s : List Char) : Option (List Char × List Char) :=
  let run := (s.takeWhile Char.isDigit).length
  ([4, 3, 2, 1].filter (· ≤ run)).findSome? fun k =>
    (decOptions (s.drop k)).findSome? fun dec =>
      let r2 := dec.2
      let r3 := r2.drop (r2.takeWhile isSpaceChar).length
      DOSE_UNIT_LITS.findSome? fun u =>
        if startsWithCI u r3 then some (s.take k ++ dec.1, r3.take u.length)
        else none

/-- The first occurrence, scanning positions left to right, of the dose
pattern as claim C5 words it. -/
def doseClaimFirst (s : List Char) : Option (List Char × List Char) :=
  (List.range s.length).findSome? fun p => tryDoseClaimAt (s.drop p)

/-- The leading word boundary of a match starting at position p (every
DOSE_RE match starts with a digit, a word character). -/
def boundaryBeforeAt (s : List Char) (p : Nat) : Bool :=
  match p with
  | 0 => true
  | q + 1 =>
    !(match s.get? q with
      | some d => isWordChar d
      | none => false)

/-- The dose extraction as the amended claim C5 states it: the first
position, scanning left to right, where the boundary-aware DOSE_RE
pattern matches. -/
def doseFirstMatch (s : List Char) : Option (List Char × List Char) :=
  (List.range s.length).findSome? fun p =>
    if boundaryBeforeAt s p then tryDoseAt (s.drop p) else none

/-- The name candidate as the amended claim C4 states it: from the text
before the first hyphen (stripped), the leading run of letters and
hyphens when it has length at least 3, the whole text otherwise; then
the boundary-delimited form and unit keywords are removed and the result
is stripped. -/
def namePartSpec (s : List Char) : List Char :=
  let left := stripWs (s.takeWhile fun c => c != '-')
  let run := left.takeWhile fun d => d.isAlpha || d = '-'
  let base := if 3 ≤ run.length then run else left
  stripWs (stripKw base)

/-- The record parsed from the demo Betaloc line, used as a concrete
instance for witnesses. -/
def medBetaloc : MedRec :=
  { name := "Betaloc", dose := "100 mg", freq := "BID",
    freq_expanded := "Twice daily", route := "Oral (Tablet)",
    raw := "Betaloc 100mg - 1 tab BID" }

/-- The dose field of an assembled record. -/
theorem mkMedRec_dose (line s : List Char) :
    (mkMedRec line s).dose = String.mk (doseFmt (doseSearch s)) := rfl

/-- The frequency field of an assembled record. -/
theorem mkMedRec_freq (line s : List Char) :
    (mkMedRec line s).freq = String.mk (freqFmt (freqSearch s)) := rfl

/-- The expansion field of an assembled record is the FREQ_MAP lookup of
its own frequency field, with the code as fallback. -/
theorem mkMedRec_fe (line s : List Char) :
    (mkMedRec line s).freq_expanded = freqMapGet ((mkMedRec line s).freq) := rfl

/-- Fields of a successfully parsed record as the source assembles
them: the dose is the formatted first DOSE_RE match of the normalized
line, the frequency code the uppercased first FREQ_RE match, and the
expansion the FREQ_MAP lookup of the code with the code as fallback. -/
theorem parse_fields {line : List Char} {m : MedRec}
    (h : parseLineToMed line = some m) :
    m.dose = String.mk (doseFmt (doseSearch (normalizeLine line))) ∧
    m.freq = String.mk (freqFmt (freqSearch (normalizeLine line))) ∧
    m.freq_expanded = freqMapGet m.freq := by
  simp only [parseLineToMed] at h
  split at h
  · exact absurd h (by simp)
  · split at h
    · exact absurd h (by simp)
    · split at h
      · exact absurd h (by simp)
      · split at h
        · exact absurd h (by simp)
        · rw [Option.some.injEq] at h
          subst h
          exact ⟨mkMedRec_dose line (normalizeLine line),
            mkMedRec_freq line (normalizeLine line),
            mkMedRec_fe line (normalizeLine line)⟩

/-- Every record of the extractor output comes from a successful parse
of some line. -/
theorem mem_extractMedsGo {m : MedRec} :
    ∀ (ls : List (List Char)) (seen : List (String × String × String)),
      m ∈ extractMedsGo ls seen → ∃ l, parseLineToMed l = some m := by
  intro ls
  induction ls with
  | nil => intro seen h; simp [extractMedsGo] at h
  | cons l ls ih =>
    intro seen h
    unfold extractMedsGo at h
    by_cases hb : (stripWs l).isEmpty = true
    · rw [if_pos hb] at h
      exact ih _ h
    · rw [if_neg hb] at h
      cases hp : parseLineToMed l with
      | none =>
        simp only [hp] at h
        exact ih _ h
      | some mp =>
        simp only [hp] at h
        by_cases hs : seen.contains (medKey mp) = true
        · rw [if_pos hs] at h
          exact ih _ h
        · rw [if_neg hs] at h
          rcases List.mem_cons.mp h with h1 | h1
          · exact ⟨l, by rw [hp, h1]⟩
          · exact ih _ h1

/-- The DOSE_RE scan, with the word-character status of the previous
character threaded through, visits the positions from left to right. -/
theorem doseSearchGo_eq :
    ∀ (cs : List Char) (prevW : Bool),
      doseSearchGo prevW cs =
        (List.range cs.length).findSome? fun p =>
          if (match p with
              | 0 => !prevW
              | q + 1 =>
                !(match cs.get? q with
                  | some d => isWordChar d
                  | none => false))
          then tryDoseAt (cs.drop p) else none := by
  intro cs
  induction cs with
  | nil => intro prevW; rfl
  | cons c cs ih =>
    intro prevW
    rw [List.length_cons, List.range_succ_eq_map, List.findSome?_cons]
    rw [List.findSome?_map]
    have hfun :
        ((fun p =>
          if (match p with
              | 0 => !prevW
              | q + 1 =>
                !(match (c :: cs).get? q with
                  | some d => isWordChar d
                  | none => false))
          then tryDoseAt ((c :: cs).drop p) else none) ∘ Nat.succ) =
        fun p =>
          if (match p with
              | 0 => !isWordChar c
              | q + 1 =>
                !(match cs.get? q with
                  | some d => isWordChar d
                  | none => false))
          then tryDoseAt (cs.drop p) else none := by
      funext p
      cases p with
      | zero =>
        simp only [Function.comp_apply, List.get?_cons_zero,
          List.drop_succ_cons, List.drop_zero]
      | succ q =>
        simp only [Function.comp_apply, List.get?_cons_succ,
          List.drop_succ_cons]
    rw [hfun, ← ih (isWordChar c)]
    cases prevW with
    | false =>
      simp only [doseSearchGo, Bool.not_false, if_true, List.drop_zero]
      cases tryDoseAt (c :: cs) <;> rfl
    | true =>
      simp only [doseSearchGo, Bool.not_true, Bool.false_eq_true, if_false]
      rfl

/-! ### Shape lemmas for the matched fields -/

/-- Characters with equal code points are equal. -/
theorem char_toNat_inj {c d : Char} (h : c.toNat = d.toNat) : c = d :=
  Char.ext (UInt32.ext h)

/-- Code point of a character built from a valid code point. -/
theorem toNat_ofNat_valid {n : Nat} (h : n.isValidChar) :
    (Char.ofNat n).toNat = n := by
  unfold Char.ofNat
  rw [dif_pos h]
  rfl

/-- Characters with the same lowercase form have the same uppercase
form (true for the ASCII case mapping of the embedding). -/
theorem toUpper_eq_of_toLower_eq {c d : Char} (h : c.toLower = d.toLower) :
    c.toUpper = d.toUpper := by
  simp only [Char.toLower] at h
  by_cases hc : c.toNat ≥ 65 ∧ c.toNat ≤ 90
  · rw [if_pos hc] at h
    have hvc : (c.toNat + 32).isValidChar := Or.inl (by omega)
    by_cases hd : d.toNat ≥ 65 ∧ d.toNat ≤ 90
    · rw [if_pos hd] at h
      have hvd : (d.toNat + 32).isValidChar := Or.inl (by omega)
      have ht := congrArg Char.toNat h
      rw [toNat_ofNat_valid hvc, toNat_ofNat_valid hvd] at ht
      rw [char_toNat_inj (show c.toNat = d.toNat by omega)]
    · rw [if_neg hd] at h
      have hdn : d.toNat = c.toNat + 32 := by
        rw [← h, toNat_ofNat_valid hvc]
      simp only [Char.toUpper]
      rw [if_neg (by omega), if_pos (by omega)]
      have hback : d.toNat - 32 = c.toNat := by omega
      rw [hback, Char.ofNat_toNat]
  · rw [if_neg hc] at h
    by_cases hd : d.toNat ≥ 65 ∧ d.toNat ≤ 90
    · rw [if_pos hd] at h
      have hvd : (d.toNat + 32).isValidChar := Or.inl (by omega)
      have hcn : c.toNat = d.toNat + 32 := by
        rw [h, toNat_ofNat_valid hvd]
      simp only [Char.toUpper]
      rw [if_pos (by omega), if_neg (by omega)]
      have hback : c.toNat - 32 = d.toNat := by omega
      rw [hback, Char.ofNat_toNat]
    · rw [if_neg hd] at h
      rw [h]

/-- Uppercasing does not change a digit. -/
theorem toUpper_of_isDigit {c : Char} (h : c.isDigit = true) :
    c.toUpper = c := by
  simp only [Char.isDigit, Bool.and_eq_true, decide_eq_true_eq] at h
  have h2 : c.val.toNat ≤ 57 := h.2
  simp only [Char.toUpper]
  rw [if_neg]
  intro hcon
  have h3 : 97 ≤ c.toNat := hcon.1
  unfold Char.toNat at h3
  omega

/-- Lists with equal lowercase forms have equal uppercase forms. -/
theorem upperL_eq_of_lowerL_eq :
    ∀ {f g : List Char}, lowerL f = lowerL g → upperL f = upperL g := by
  intro f
  induction f with
  | nil =>
    intro g h
    cases g with
    | nil => rfl
    | cons c cs => simp [lowerL] at h
  | cons c cs ih =>
    intro g h
    cases g with
    | nil => simp [lowerL] at h
    | cons d ds =>
      simp only [lowerL, List.map_cons, List.cons.injEq] at h
      simp only [upperL, List.map_cons, List.cons.injEq]
      exact ⟨toUpper_eq_of_toLower_eq h.1, ih h.2⟩

/-- Uppercasing a list of digits does not change it. -/
theorem upperL_of_all_digits :
    ∀ {l : List Char}, l.all Char.isDigit = true → upperL l = l := by
  intro l
  induction l with
  | nil => intro _; rfl
  | cons c cs ih =>
    intro h
    simp only [List.all_cons, Bool.and_eq_true] at h
    simp only [upperL, List.map_cons]
    rw [toUpper_of_isDigit h.1]
    have := ih h.2
    simp only [upperL] at this
    rw [this]

/-- A take within the matched run of takeWhile satisfies the predicate
and has full length. -/
theorem take_of_takeWhile (p : Char → Bool) :
    ∀ (s : List Char) (k : Nat), k ≤ (s.takeWhile p).length →
      (s.take k).all p = true ∧ (s.take k).length = k := by
  intro s
  induction s with
  | nil =>
    intro k hk
    simp only [List.takeWhile_nil, List.length_nil, Nat.le_zero] at hk
    subst hk
    simp
  | cons c cs ih =>
    intro k hk
    cases hpc : p c with
    | false =>
      rw [List.takeWhile_cons_of_neg (by simp [hpc])] at hk
      simp only [List.length_nil, Nat.le_zero] at hk
      subst hk
      simp
    | true =>
      rw [List.takeWhile_cons_of_pos hpc] at hk
      cases k with
      | zero => simp
      | succ j =>
        simp only [List.length_cons] at hk
        obtain ⟨ha, hl⟩ := ih j (by omega)
        simp [List.take_succ_cons, hpc, ha, hl]

/-- The whole run of takeWhile satisfies the predicate. -/
theorem all_takeWhile (p : Char → Bool) (s : List Char) :
    (s.takeWhile p).all p = true := by
  rw [List.all_eq_true]
  intro c hc
  exact List.mem_takeWhile_imp hc

/-- A case-insensitive prefix match takes a slice of the pattern's
length with the pattern's lowercase form. -/
theorem startsWithCI_shape :
    ∀ (pat s : List Char), startsWithCI pat s = true →
      lowerL (s.take pat.length) = lowerL pat ∧
        (s.take pat.length).length = pat.length := by
  intro pat
  induction pat with
  | nil =>
    intro s _
    simp [lowerL]
  | cons p ps ih =>
    intro s h
    cases s with
    | nil => simp [startsWithCI] at h
    | cons c cs =>
      simp only [startsWithCI, Bool.and_eq_true, decide_eq_true_eq] at h
      obtain ⟨h1, h2⟩ := h
      obtain ⟨ihl, ihlen⟩ := ih cs h2
      constructor
      · simp only [List.length_cons, List.take_succ_cons, lowerL,
          List.map_cons, List.cons.injEq]
        exact ⟨h1, ihl⟩
      · simp only [List.length_cons, List.take_succ_cons]
        omega

/-- Every dose unit of the pattern is already lowercase. -/
theorem units_lower : ∀ u ∈ DOSE_UNIT_LITS, lowerL u = u := by decide

/-- Every frequency literal of the pattern is already uppercase. -/
theorem freqLits_upper : ∀ u ∈ FREQ_LITS, upperL u = u := by decide

/-- A successful unit match pairs the number with a slice whose
lowercase form is one of the dose units. -/
theorem tryUnitAt_shape {numStr s : List Char} {r : List Char × List Char}
    (h : tryUnitAt numStr s = some r) :
    r.1 = numStr ∧ lowerL r.2 ∈ DOSE_UNIT_LITS := by
  obtain ⟨u, hu, hf⟩ := List.exists_of_findSome?_eq_some h
  by_cases hcond : (startsWithCI u s &&
      boundBetween (s.take u.length).getLast? (s.drop u.length).head?) = true
  · rw [if_pos hcond] at hf
    rw [Option.some.injEq] at hf
    subst hf
    refine ⟨rfl, ?_⟩
    have hci := (Bool.and_eq_true _ _).mp hcond |>.1
    have hlow := (startsWithCI_shape u s hci).1
    show lowerL (s.take u.length) ∈ DOSE_UNIT_LITS
    rw [hlow, units_lower u hu]
    exact hu
  · rw [if_neg hcond] at hf
    exact absurd hf (by simp)

/-- Every backtracking choice of the decimal part is empty or a dot
followed by one or two digits. -/
theorem decOptions_shape {r : List Char} {dec : List Char × List Char}
    (h : dec ∈ decOptions r) :
    dec.1 = [] ∨ ∃ ds, dec.1 = '.' :: ds ∧ ds ≠ [] ∧ ds.length ≤ 2 ∧
      ds.all Char.isDigit = true := by
  match r with
  | [] =>
    simp only [decOptions, List.mem_singleton] at h
    rw [h]
    left
    rfl
  | c :: rest =>
    by_cases hdot : c = '.'
    · subst hdot
      simp only [decOptions, if_pos] at h
      rw [List.mem_append, List.mem_append] at h
      rcases h with (h | h) | h
      · by_cases h2 : 2 ≤ (rest.takeWhile Char.isDigit).length
        · rw [if_pos h2] at h
          simp only [List.mem_singleton] at h
          subst h
          obtain ⟨ha, hl⟩ := take_of_takeWhile Char.isDigit rest 2 h2
          exact Or.inr ⟨rest.take 2, rfl, by simp [← List.length_eq_zero, hl],
            by omega, ha⟩
        · rw [if_neg h2] at h
          simp at h
      · by_cases h1 : 1 ≤ (rest.takeWhile Char.isDigit).length
        · rw [if_pos h1] at h
          simp only [List.mem_singleton] at h
          subst h
          obtain ⟨ha, hl⟩ := take_of_takeWhile Char.isDigit rest 1 h1
          exact Or.inr ⟨rest.take 1, rfl, by simp [← List.length_eq_zero, hl],
            by omega, ha⟩
        · rw [if_neg h1] at h
          simp at h
      · simp only [List.mem_singleton] at h
        subst h
        left
        rfl
    · have hform : decOptions (c :: rest) = [([], c :: rest)] := by
        simp only [decOptions, if_neg hdot]
      rw [hform, List.mem_singleton] at h
      subst h
      left
      rfl

/-- A successful DOSE_RE match at one position has the claimed number
shape, and its unit lowercases into the unit set. -/
theorem tryDoseAt_shape {s : List Char} {r : List Char × List Char}
    (h : tryDoseAt s = some r) :
    (∃ ip fr, r.1 = ip ++ fr ∧ ip ≠ [] ∧ ip.length ≤ 4 ∧
      ip.all Char.isDigit = true ∧
      (fr = [] ∨ ∃ ds, fr = '.' :: ds ∧ ds ≠ [] ∧ ds.length ≤ 2 ∧
        ds.all Char.isDigit = true)) ∧
    lowerL r.2 ∈ DOSE_UNIT_LITS := by
  simp only [tryDoseAt] at h
  obtain ⟨k, hk, h2⟩ := List.exists_of_findSome?_eq_some h
  rw [List.mem_filter] at hk
  have hk4 : 1 ≤ k ∧ k ≤ 4 := by
    have := hk.1
    simp only [List.mem_cons, List.mem_singleton] at this
    rcases this with rfl | rfl | rfl | rfl | hfalse
    · omega
    · omega
    · omega
    · omega
    · simp at hfalse
  have hkrun : k ≤ (s.takeWhile Char.isDigit).length := by
    have := hk.2
    simpa using this
  obtain ⟨dec, hdec, h3⟩ := List.exists_of_findSome?_eq_some h2
  obtain ⟨hr1, hr2⟩ := tryUnitAt_shape h3
  obtain ⟨ha, hl⟩ := take_of_takeWhile Char.isDigit s k hkrun
  refine ⟨⟨s.take k, dec.1, hr1, ?_, ?_, ha, decOptions_shape hdec⟩, hr2⟩
  · simp [← List.length_eq_zero, hl]
    omega
  · omega

/-- A successful DOSE_RE search comes from a successful position
match. -/
theorem doseSearchGo_some :
    ∀ (cs : List Char) (prevW : Bool) (r : List Char × List Char),
      doseSearchGo prevW cs = some r → ∃ t, tryDoseAt t = some r := by
  intro cs
  induction cs with
  | nil =>
    intro prevW r h
    simp [doseSearchGo] at h
  | cons c cs ih =>
    intro prevW r h
    unfold doseSearchGo at h
    cases hx : (if !prevW then tryDoseAt (c :: cs) else none) with
    | some v =>
      rw [hx, Option.some_orElse] at h
      rw [Option.some.injEq] at h
      subst h
      by_cases hw : (!prevW) = true
      · rw [if_pos hw] at hx
        exact ⟨c :: cs, hx⟩
      · rw [if_neg hw] at hx
        exact absurd hx (by simp)
    | none =>
      rw [hx, Option.none_orElse] at h
      exact ih _ _ h

/-- A successful FREQ_RE search comes from a successful position
match. -/
theorem freqSearchGo_some :
    ∀ (cs : List Char) (prevW : Bool) (f : List Char),
      freqSearchGo prevW cs = some f → ∃ t, freqTryAt t = some f := by
  intro cs
  induction cs with
  | nil =>
    intro prevW f h
    simp [freqSearchGo] at h
  | cons c cs ih =>
    intro prevW f h
    unfold freqSearchGo at h
    cases hx : (if !prevW then freqTryAt (c :: cs) else none) with
    | some v =>
      rw [hx, Option.some_orElse] at h
      rw [Option.some.injEq] at h
      subst h
      by_cases hw : (!prevW) = true
      · rw [if_pos hw] at hx
        exact ⟨c :: cs, hx⟩
      · rw [if_neg hw] at hx
        exact absurd hx (by simp)
    | none =>
      rw [hx, Option.none_orElse] at h
      exact ih _ _ h

/-- A successful FREQ_RE position match uppercases to a literal of the
closed set or to a Q-digits-H code. -/
theorem freqTryAt_shape {s f : List Char} (h : freqTryAt s = some f) :
    upperL f ∈ FREQ_LITS ∨
      ∃ ds, upperL f = 'Q' :: (ds ++ ['H']) ∧ ds ≠ [] ∧
        ds.all Char.isDigit = true := by
  unfold freqTryAt at h
  cases hx : FREQ_LITS.findSome? (fun lit => tryLitAt lit s) with
  | some v =>
    rw [hx, Option.some_orElse, Option.some.injEq] at h
    subst h
    obtain ⟨lit, hlit, hf⟩ := List.exists_of_findSome?_eq_some hx
    unfold tryLitAt at hf
    by_cases hcond : (startsWithCI lit s &&
        boundBetween (s.take lit.length).getLast?
          (s.drop lit.length).head?) = true
    · rw [if_pos hcond] at hf
      rw [Option.some.injEq] at hf
      subst hf
      left
      have hci := (Bool.and_eq_true _ _).mp hcond |>.1
      have hlow := (startsWithCI_shape lit s hci).1
      rw [upperL_eq_of_lowerL_eq hlow, freqLits_upper lit hlit]
      exact hlit
    · rw [if_neg hcond] at hf
      exact absurd hf (by simp)
  | none =>
    rw [hx, Option.none_orElse] at h
    right
    cases s with
    | nil => simp [tryQnhAt] at h
    | cons c cs =>
      simp only [tryQnhAt] at h
      by_cases hq : c.toLower = 'q'
      · rw [if_pos hq] at h
        by_cases hz : (cs.takeWhile Char.isDigit).length = 0
        · rw [if_pos hz] at h
          exact absurd h (by simp)
        · rw [if_neg hz] at h
          cases hdrop : cs.drop (cs.takeWhile Char.isDigit).length with
          | nil =>
            rw [hdrop] at h
            exact absurd h (by simp)
          | cons hc rest =>
            rw [hdrop] at h
            dsimp only at h
            by_cases hh : (hc.toLower = ('h' : Char) &&
                boundBetween (some hc) rest.head?) = true
            · rw [if_pos hh] at h
              rw [Option.some.injEq] at h
              subst h
              have hhl : hc.toLower = 'h' := by
                have := (Bool.and_eq_true _ _).mp hh |>.1
                simpa using this
              have hdall := all_takeWhile Char.isDigit cs
              refine ⟨cs.takeWhile Char.isDigit, ?_, ?_, hdall⟩
              · show upperL (c :: (cs.takeWhile Char.isDigit ++ [hc])) = _
                simp only [upperL, List.map_cons, List.map_append,
                  List.map_cons, List.map_nil]
                have hcq : c.toUpper = 'Q' := by
                  have : c.toLower = ('q' : Char).toLower := by
                    rw [hq]
                    decide
                  rw [toUpper_eq_of_toLower_eq this]
                  decide
                have hch : hc.toUpper = 'H' := by
                  have : hc.toLower = ('h' : Char).toLower := by
                    rw [hhl]
                    decide
                  rw [toUpper_eq_of_toLower_eq this]
                  decide
                rw [hcq, hch]
                have hds := upperL_of_all_digits hdall
                simp only [upperL] at hds
                rw [hds]
              · intro hnil
                rw [hnil] at hz
                simp at hz
            · rw [if_neg hh] at h
              exact absurd h (by simp)
      · rw [if_neg hq] at h
        exact absurd h (by simp)

/-- The dose-field shape asserted by claim C10: empty, or one to four
integer digits, an optional dot with one or two decimal digits, one
space, and a lowercase unit of the fixed set. -/
def DoseFieldShape (d : String) : Prop :=
  d = "" ∨ ∃ ip fr u, d.data = ip ++ fr ++ (' ' :: u) ∧
    ip ≠ [] ∧ ip.length ≤ 4 ∧ ip.all Char.isDigit = true ∧
    (fr = [] ∨ ∃ ds, fr = '.' :: ds ∧ ds ≠ [] ∧ ds.length ≤ 2 ∧
      ds.all Char.isDigit = true) ∧
    u ∈ DOSE_UNIT_LITS

/-- The frequency-field shape asserted by claim C10: empty, or an
entirely uppercase literal of the closed set, or Q, digits, H. -/
def FreqFieldShape (f : String) : Prop :=
  f = "" ∨ f.data ∈ FREQ_LITS ∨
    ∃ ds, f.data = 'Q' :: (ds ++ ['H']) ∧ ds ≠ [] ∧
      ds.all Char.isDigit = true

/-! ### Positional characterization of the digit-context corrections -/

/-- The character before position i of a string, if any. -/
def prevAt (s : List Char) : Nat → Option Char
  | 0 => none
  | j + 1 => s.get? j

/-- The digit lookalikes handled by the three substitutions. -/
def isLookalike (c : Char) : Bool :=
  (S "Oo").contains c || (S "Il").contains c || (S "Zz").contains c

/-- The digit a lookalike stands for. -/
def lookalikeFix (c : Char) : Char :=
  if (S "Oo").contains c then '0'
  else if (S "Il").contains c then '1'
  else if (S "Zz").contains c then '2'
  else c

/-- Position i of one lookaround substitution pass: the character is
replaced exactly when it is in the class and both of its original
neighbours are digits (the threaded previous character stands in for the
left neighbour at position 0). -/
theorem sbdGo_get (ts : List Char) (r : Char) :
    ∀ (s : List Char) (prev : Option Char) (i : Nat),
      (sbdGo ts r prev s).get? i = (s.get? i).map fun c =>
        if ts.contains c &&
            digitO (match i with
              | 0 => prev
              | j + 1 => s.get? j) &&
            digitO (s.get? (i + 1)) then r else c := by
  intro s
  induction s with
  | nil => intro prev i; rfl
  | cons c cs ih =>
    intro prev i
    cases i with
    | zero =>
      show (sbdGo ts r prev (c :: cs)).get? 0 = _
      unfold sbdGo
      cases cs <;> rfl
    | succ j =>
      show (sbdGo ts r prev (c :: cs)).get? (j + 1) = _
      unfold sbdGo
      rw [List.get?_cons_succ, ih (some c) j]
      cases j <;> rfl

/-- One substitution pass over a whole line, positionally. -/
theorem sbd_get (ts : List Char) (r : Char) (x : List Char) (i : Nat) :
    (sbd ts r x).get? i = (x.get? i).map fun c =>
      if ts.contains c && digitO (prevAt x i) && digitO (x.get? (i + 1))
      then r else c := by
  unfold sbd
  rw [sbdGo_get]
  cases i <;> rfl

/-- A pass never disturbs the neighbourhood of a non-digit position:
both neighbours of position i keep their values. -/
theorem sbd_neighbors (ts : List Char) (r : Char) (x : List Char)
    (i : Nat) (c : Char) (hx : x.get? i = some c)
    (hcd : c.isDigit = false) :
    (sbd ts r x).get? (i + 1) = x.get? (i + 1) ∧
      prevAt (sbd ts r x) i = prevAt x i := by
  constructor
  · rw [sbd_get]
    cases hnx : x.get? (i + 1) with
    | none => rfl
    | some d =>
      have hprev : prevAt x (i + 1) = x.get? i := rfl
      simp only [Option.map_some']
      rw [show digitO (prevAt x (i + 1)) = false by
            rw [hprev, hx]
            show c.isDigit = false
            exact hcd]
      simp
  · cases i with
    | zero => rfl
    | succ j =>
      show (sbd ts r x).get? j = x.get? j
      rw [sbd_get]
      cases hnx : x.get? j with
      | none => rfl
      | some d =>
        simp only [Option.map_some']
        rw [show digitO (x.get? (j + 1)) = false by
              rw [hx]
              show c.isDigit = false
              exact hcd]
        simp

/-- Position i of a pass whose character is outside the class. -/
theorem sbd_skip (ts : List Char) (r : Char) (x : List Char) (i : Nat)
    (c : Char) (hx : x.get? i = some c) (hc : ts.contains c = false) :
    (sbd ts r x).get? i = some c := by
  rw [sbd_get, hx]
  simp only [Option.map_some', hc, Bool.false_and, Bool.false_eq_true,
    if_false]

/-- Position i of a pass whose character is inside the class. -/
theorem sbd_hit (ts : List Char) (r : Char) (x : List Char) (i : Nat)
    (c : Char) (hx : x.get? i = some c) (hc : ts.contains c = true) :
    (sbd ts r x).get? i =
      some (if digitO (prevAt x i) && digitO (x.get? (i + 1)) then r
        else c) := by
  rw [sbd_get, hx]
  simp only [Option.map_some', hc, Bool.true_and]

/-! ### Claims -/

/-- Claim C1: on the six-line scenario of the spec, extract_entities
returns exactly four medication records (header and refill lines produce
none); the first has name Betaloc, dose 100 mg, code BID expanded to
Twice daily, route Oral (Tablet); the fourth resolves to Oxprenolol with
the garbled 50m9 token repaired so its dose is 50 mg. -/
theorem c1_end_to_end :
    (extract_entities specScenario).medications.length = 4 ∧
    (extract_entities specScenario).medications.get? 0 = some
      { name := "Betaloc", dose := "100 mg", freq := "BID",
        freq_expanded := "Twice daily", route := "Oral (Tablet)",
        raw := "Betaloc 100mg - 1 tab BID" } ∧
    ((extract_entities specScenario).medications.get? 3).map MedRec.name =
      some "Oxprenolol" ∧
    ((extract_entities specScenario).medications.get? 3).map MedRec.dose =
      some "50 mg" := by
  have h : (extract_entities specScenario).medications =
      [{ name := "Betaloc", dose := "100 mg", freq := "BID",
         freq_expanded := "Twice daily", route := "Oral (Tablet)",
         raw := "Betaloc 100mg - 1 tab BID" },
       { name := "Dorzolamide", dose := "10 mg", freq := "BID",
         freq_expanded := "Twice daily", route := "Oral (Tablet)",
         raw := "Dorzolamidum 10 mg - 1 tab BID" },
       { name := "Cimetidine", dose := "50 mg", freq := "TID",
         freq_expanded := "Three times daily", route := "Oral (Tablet)",
         raw := "Cimetidine 50 mg - 2 tabs TID" },
       { name := "Oxprenolol", dose := "50 mg", freq := "QD",
         freq_expanded := "Once daily", route := "Oral (Tablet)",
         raw := "Oxprelel 50m9 - 1 tab QD" }] := by decide
  refine ⟨?_, ?_, ?_, ?_⟩ <;> rw [h] <;> rfl

/-- Claim C2, counterexample: the line xr is classified as admin noise
by the code (its rule 4 is the character class of r, x, non-word
characters and digits), but no rule of the claimed policy applies to it:
in particular it does not carry the literal prefix rx. -/
theorem c2_counterexample :
    looksLikeAdmin (S "xr") = true ∧ claimAdminNoise (S "xr") = false := by
  decide

/-- Claim C2 as amended: the admin-noise predicate agrees, on every
line, with the ordered four-rule policy whose rule 4 accepts any line of
one to four characters each drawn from r, x, non-word characters and
digits. -/
theorem c2_admin_policy :
    ∀ line : List Char, looksLikeAdmin line = adminNoiseAmended line := by
  intro line
  simp only [looksLikeAdmin, adminNoiseAmended]
  cases h1 : (stripWs (lowerL line)).isEmpty <;>
    cases h2 : ADMIN_KEYWORDS.any
        (fun k => containsSub k (stripWs (lowerL line))) <;>
      cases h3 : (stripWs (lowerL line)).contains ',' &&
          !((doseSearch (stripWs (lowerL line))).isSome ||
            (freqSearch (stripWs (lowerL line))).isSome ||
            formSearch (stripWs (lowerL line))) <;>
        simp [h1, h2, h3]

/-- Claim C3, counterexample: in the line 5O the letter O is immediately
adjacent to the digit 5, yet normalization leaves it unchanged (the code
rewrites a lookalike only between two digits), contradicting the claimed
rewrite of every digit-adjacent lookalike. -/
theorem c3_counterexample :
    digitPass (S "5O") = S "5O" ∧ normalizeLine (S "5O") = S "5O" ∧
      S "5O" ≠ S "50" := by
  decide

/-- Helper for claim C4: on a string without hyphens, the anchored
name-run match of the source falls back to the whole string exactly when
the leading letters-and-hyphens run is shorter than 3. -/
theorem nameBase_eq (left : List Char) (hleft : ∀ c ∈ left, c ≠ '-') :
    (match reMatchName left with
     | some r => r
     | none => left) =
    (if 3 ≤ (left.takeWhile fun d => d.isAlpha || d = '-').length
     then left.takeWhile fun d => d.isAlpha || d = '-'
     else left) := by
  cases left with
  | nil => rfl
  | cons c cs =>
    by_cases hc : c.isAlpha = true
    · have hpred : ((fun d => d.isAlpha || decide (d = '-')) c) = true := by
        simp [hc]
      rw [@List.takeWhile_cons_of_pos _
        (fun d => d.isAlpha || decide (d = '-')) c cs hpred]
      simp only [reMatchName, hc, if_true, List.length_cons]
      by_cases hlen :
          2 ≤ (cs.takeWhile fun d => d.isAlpha || decide (d = '-')).length
      · rw [if_pos hlen, if_pos (by omega)]
      · rw [if_neg hlen, if_neg (by omega)]
    · have hpred : ¬ ((fun d => d.isAlpha || decide (d = '-')) c) = true := by
        have hnd := hleft c (by simp)
        simp [hc, hnd]
      rw [@List.takeWhile_cons_of_neg _
        (fun d => d.isAlpha || decide (d = '-')) c cs hpred]
      simp [reMatchName, hc]

/-- Claim C3 as amended: in the digit-context step of normalization a
lookalike letter is rewritten to its digit exactly when both immediate
neighbours in the original line are digits; every other position is
unchanged. -/
theorem c3_digit_context :
    ∀ (s : List Char) (i : Nat),
      (digitPass s).get? i = (s.get? i).map fun c =>
        if isLookalike c && digitO (prevAt s i) && digitO (s.get? (i + 1))
        then lookalikeFix c else c := by
  intro s i
  unfold digitPass
  cases hsi : s.get? i with
  | none =>
    have hA : (sbd (S "Oo") '0' s).get? i = none := by
      rw [sbd_get, hsi]
      rfl
    have hB : (sbd (S "Il") '1' (sbd (S "Oo") '0' s)).get? i = none := by
      rw [sbd_get, hA]
      rfl
    rw [sbd_get, hB]
    rfl
  | some c =>
    by_cases hOo : (S "Oo").contains c = true
    · have hcs : c = 'O' ∨ c = 'o' := by
        have hOo2 := hOo
        rw [show S "Oo" = ['O', 'o'] from rfl] at hOo2
        simpa using hOo2
      have hcd : c.isDigit = false := by
        rcases hcs with rfl | rfl <;> decide
      have hA := sbd_hit (S "Oo") '0' s i c hsi hOo
      cases hK : (digitO (prevAt s i) && digitO (s.get? (i + 1))) with
      | true =>
        rw [hK] at hA
        rw [if_pos rfl] at hA
        have hB := sbd_skip (S "Il") '1' _ i '0' hA (by decide)
        have hC := sbd_skip (S "Zz") '2' _ i '0' hB (by decide)
        rw [hC]
        have hfix : lookalikeFix c = '0' := by
          unfold lookalikeFix
          rw [if_pos hOo]
        have hm : c ∈ S "Oo" := by simpa using hOo
        have hsp := (Bool.and_eq_true _ _).mp hK
        have hsp2 : digitO (s[i + 1]?) = true := by simpa using hsp.2
        simp [isLookalike, hm, hsp.1, hsp2, hfix]
      | false =>
        rw [hK] at hA
        rw [if_neg (by decide)] at hA
        have hIl : (S "Il").contains c = false := by
          rcases hcs with rfl | rfl <;> decide
        have hZz : (S "Zz").contains c = false := by
          rcases hcs with rfl | rfl <;> decide
        have hB := sbd_skip (S "Il") '1' _ i c hA hIl
        have hC := sbd_skip (S "Zz") '2' _ i c hB hZz
        rw [hC]
        have hor : digitO (prevAt s i) = false ∨
            digitO (s.get? (i + 1)) = false := by
          revert hK
          cases digitO (prevAt s i) <;> cases digitO (s.get? (i + 1)) <;> simp
        rcases hor with hx | hx
        · simp [hx]
        · have hx2 : digitO (s[i + 1]?) = false := by simpa using hx
          simp [hx2]
    · by_cases hIl : (S "Il").contains c = true
      · have hcs : c = 'I' ∨ c = 'l' := by
          have hIl2 := hIl
          rw [show S "Il" = ['I', 'l'] from rfl] at hIl2
          simpa using hIl2
        have hcd : c.isDigit = false := by
          rcases hcs with rfl | rfl <;> decide
        have hZz : (S "Zz").contains c = false := by
          rcases hcs with rfl | rfl <;> decide
        have hOo' : (S "Oo").contains c = false := by
          revert hOo
          cases (S "Oo").contains c <;> simp
        have hA := sbd_skip (S "Oo") '0' s i c hsi hOo'
        have hnb := sbd_neighbors (S "Oo") '0' s i c hsi hcd
        have hB := sbd_hit (S "Il") '1' _ i c hA hIl
        rw [hnb.1, hnb.2] at hB
        cases hK : (digitO (prevAt s i) && digitO (s.get? (i + 1))) with
        | true =>
          rw [hK] at hB
          rw [if_pos rfl] at hB
          have hC := sbd_skip (S "Zz") '2' _ i '1' hB (by decide)
          rw [hC]
          have hfix : lookalikeFix c = '1' := by
            unfold lookalikeFix
            rw [if_neg (by rw [hOo']; decide), if_pos hIl]
          have hm : c ∈ S "Il" := by simpa using hIl
          have hsp := (Bool.and_eq_true _ _).mp hK
          have hsp2 : digitO (s[i + 1]?) = true := by simpa using hsp.2
          simp [isLookalike, hm, hsp.1, hsp2, hfix]
        | false =>
          rw [hK] at hB
          rw [if_neg (by decide)] at hB
          have hC := sbd_skip (S "Zz") '2' _ i c hB hZz
          rw [hC]
          have hor : digitO (prevAt s i) = false ∨
              digitO (s.get? (i + 1)) = false := by
            revert hK
            cases digitO (prevAt s i) <;> cases digitO (s.get? (i + 1)) <;> simp
          rcases hor with hx | hx
          · simp [hx]
          · have hx2 : digitO (s[i + 1]?) = false := by simpa using hx
            simp [hx2]
      · by_cases hZz : (S "Zz").contains c = true
        · have hcs : c = 'Z' ∨ c = 'z' := by
            have hZz2 := hZz
            rw [show S "Zz" = ['Z', 'z'] from rfl] at hZz2
            simpa using hZz2
          have hcd : c.isDigit = false := by
            rcases hcs with rfl | rfl <;> decide
          have hOo' : (S "Oo").contains c = false := by
            revert hOo
            cases (S "Oo").contains c <;> simp
          have hIl' : (S "Il").contains c = false := by
            revert hIl
            cases (S "Il").contains c <;> simp
          have hA := sbd_skip (S "Oo") '0' s i c hsi hOo'
          have hnbA := sbd_neighbors (S "Oo") '0' s i c hsi hcd
          have hB := sbd_skip (S "Il") '1' _ i c hA hIl'
          have hnbB := sbd_neighbors (S "Il") '1' (sbd (S "Oo") '0' s) i c hA hcd
          have hC := sbd_hit (S "Zz") '2' _ i c hB hZz
          rw [hnbB.1, hnbB.2, hnbA.1, hnbA.2] at hC
          cases hK : (digitO (prevAt s i) && digitO (s.get? (i + 1))) with
          | true =>
            rw [hK] at hC
            rw [if_pos rfl] at hC
            rw [hC]
            have hfix : lookalikeFix c = '2' := by
              unfold lookalikeFix
              rw [if_neg (by rw [hOo']; decide), if_neg (by rw [hIl']; decide), if_pos hZz]
            have hm : c ∈ S "Zz" := by simpa using hZz
            have hsp := (Bool.and_eq_true _ _).mp hK
            have hsp2 : digitO (s[i + 1]?) = true := by simpa using hsp.2
            simp [isLookalike, hm, hsp.1, hsp2, hfix]
          | false =>
            rw [hK] at hC
            rw [if_neg (by decide)] at hC
            rw [hC]
            have hor : digitO (prevAt s i) = false ∨
                digitO (s.get? (i + 1)) = false := by
              revert hK
              cases digitO (prevAt s i) <;> cases digitO (s.get? (i + 1)) <;>
                simp
            rcases hor with hx | hx
            · simp [hx]
            · have hx2 : digitO (s[i + 1]?) = false := by simpa using hx
              simp [hx2]
        · have hOo' : (S "Oo").contains c = false := by
            revert hOo
            cases (S "Oo").contains c <;> simp
          have hIl' : (S "Il").contains c = false := by
            revert hIl
            cases (S "Il").contains c <;> simp
          have hZz' : (S "Zz").contains c = false := by
            revert hZz
            cases (S "Zz").contains c <;> simp
          have hA := sbd_skip (S "Oo") '0' s i c hsi hOo'
          have hB := sbd_skip (S "Il") '1' _ i c hA hIl'
          have hC := sbd_skip (S "Zz") '2' _ i c hB hZz'
          rw [hC]
          have hlf : isLookalike c = false := by
            unfold isLookalike
            rw [hOo', hIl', hZz']
            decide
          simp [hlf]

/-- Claim C4, counterexample: the line .betaloc - 1 tab BID passes the
admin filter and has a frequency signal, and the text before the first
hyphen has no leading letter run at all, so under the claimed rule the
name candidate is empty and the line is rejected; the code instead falls
back to the whole pre-hyphen text and returns a Betaloc record. -/
theorem c4_counterexample :
    looksLikeAdmin (normalizeLine (S ".betaloc - 1 tab BID")) = false ∧
    (freqSearch (normalizeLine (S ".betaloc - 1 tab BID"))).isSome = true ∧
    ((stripWs ((normalizeLine (S ".betaloc - 1 tab BID")).takeWhile
        fun c => c != '-')).takeWhile fun d => d.isAlpha || d = '-') = [] ∧
    parseLineToMed (S ".betaloc - 1 tab BID") = some
      { name := "Betaloc", dose := "", freq := "BID",
        freq_expanded := "Twice daily", route := "Oral (Tablet)",
        raw := ".betaloc - 1 tab BID" } := by
  decide

/-- Claim C4 as amended: the name candidate is the leading run of
letters and hyphens of the pre-hyphen text when that run has length at
least 3, and the entire stripped pre-hyphen text otherwise, with the
boundary-delimited form and unit keywords then removed; a line whose
candidate is empty yields no record. -/
theorem c4_name_candidate :
    (∀ s : List Char, namePartOf s = namePartSpec s) ∧
    (∀ line : List Char,
      (namePartOf (normalizeLine line)).isEmpty = true →
        parseLineToMed line = none) := by
  constructor
  · intro s
    unfold namePartOf namePartSpec
    have hleft : ∀ c ∈ stripWs (s.takeWhile fun c => c != '-'), c ≠ '-' := by
      intro c hc
      have h1 : c ∈ (s.takeWhile fun c => c != '-') := by
        unfold stripWs at hc
        rw [List.mem_reverse] at hc
        have h2 := (List.dropWhile_sublist _).subset hc
        rw [List.mem_reverse] at h2
        exact (List.dropWhile_sublist _).subset h2
      have := List.mem_takeWhile_imp h1
      simpa using this
    dsimp only
    rw [nameBase_eq _ hleft]
  · intro line h
    unfold parseLineToMed
    simp [h]

/-- Witness for the amended claim C4: a concrete line whose name
candidate is empty (the pre-hyphen text is just the keyword mg) produces
no record. -/
theorem c4_witness :
    (namePartOf (normalizeLine (S "mg - 1 tab BID"))).isEmpty = true ∧
    parseLineToMed (S "mg - 1 tab BID") = none :=
  ⟨by decide, c4_name_candidate.2 (S "mg - 1 tab BID") (by decide)⟩

/-- Claim C5, counterexample: in the line 50 percent-sign space x, the
number 50 is immediately followed by the unit token of the percent sign,
so the claimed rule extracts 50 percent, but DOSE_RE also demands a word
boundary after the unit (after a percent sign that means a following
word character), so the code extracts nothing. -/
theorem c5_counterexample :
    doseFmt (doseSearch (S "50% x")) = S "" ∧
      doseFmt (doseClaimFirst (S "50% x")) = S "50 %" := by
  decide

/-- Claim C5 as amended: the dose extracted by DOSE_RE.search is the
first position, scanning left to right, at which the boundary-aware dose
pattern matches (a word boundary before the number and after the unit);
the dose field of every parsed record is that match formatted as number,
space, lowercased unit, or empty when there is none. -/
theorem c5_dose_extraction :
    (∀ s : List Char, doseSearch s = doseFirstMatch s) ∧
    (∀ (line : List Char) (m : MedRec),
      parseLineToMed line = some m →
        m.dose = String.mk (doseFmt (doseFirstMatch (normalizeLine line)))) := by
  have hmain : ∀ s : List Char, doseSearch s = doseFirstMatch s := by
    intro s
    unfold doseSearch doseFirstMatch
    rw [doseSearchGo_eq]
    congr 1
  refine ⟨hmain, ?_⟩
  intro line m h
  rw [(parse_fields h).1, hmain]

/-- Witness for the amended claim C5 at the demo Betaloc line. -/
theorem c5_witness :
    medBetaloc.dose =
      String.mk (doseFmt (doseFirstMatch
        (normalizeLine (S "Betaloc 100mg - 1 tab BID")))) :=
  c5_dose_extraction.2 (S "Betaloc 100mg - 1 tab BID") medBetaloc (by decide)

/-- Claim C6, counterexample: normalization is not idempotent on every
string; on x mg.. the first pass rewrites the mg-dot repair into a
string that still contains the pattern, and the second pass rewrites it
again. -/
theorem c6_counterexample :
    normalizeLine (normalizeLine (S "x mg..")) ≠ normalizeLine (S "x mg..") := by
  decide

/-- Claim C6 as amended: normalization is idempotent on the sampled
inputs of the repository, namely every line of the demo prescription of
the module's main block. -/
theorem c6_norm_idempotent_on_demo :
    demoLines.all
      (fun l => normalizeLine (normalizeLine l) == normalizeLine l) = true := by
  decide

/-- Claim C7: for every record of every extraction, when the frequency
code is a key of FREQ_MAP the expansion is the table value (a BID record
expands to Twice daily); when the code is not in the table it is
preserved verbatim as its own expansion. -/
theorem c7_freq_expansion :
    ∀ (text : String) (m : MedRec),
      m ∈ (extract_entities text).medications →
        (∀ v, FREQ_MAP.find? (fun p => p.1 == m.freq) = some v →
          m.freq_expanded = v.2) ∧
        (FREQ_MAP.find? (fun p => p.1 == m.freq) = none →
          m.freq_expanded = m.freq) ∧
        (m.freq = "BID" → m.freq_expanded = "Twice daily") := by
  intro text m hm
  obtain ⟨l, hp⟩ := mem_extractMedsGo _ _ hm
  have h3 := (parse_fields hp).2.2
  refine ⟨?_, ?_, ?_⟩
  · intro v hv
    rw [h3]
    unfold freqMapGet
    rw [hv]
    rfl
  · intro hn
    rw [h3]
    unfold freqMapGet
    rw [hn]
    rfl
  · intro hb
    rw [h3, hb]
    decide

/-- Witness for claim C7: the demo Betaloc record, whose BID code is in
the table and expands to Twice daily. -/
theorem c7_witness :
    (∀ v, FREQ_MAP.find? (fun p => p.1 == medBetaloc.freq) = some v →
      medBetaloc.freq_expanded = v.2) ∧
    (FREQ_MAP.find? (fun p => p.1 == medBetaloc.freq) = none →
      medBetaloc.freq_expanded = medBetaloc.freq) ∧
    (medBetaloc.freq = "BID" → medBetaloc.freq_expanded = "Twice daily") :=
  c7_freq_expansion "Betaloc 100mg - 1 tab BID" medBetaloc (by decide)

/-- The records parsed from the non-blank lines of a text, in line
order, before deduplication. -/
def candidateRecords (text : List Char) : List MedRec :=
  (splitLinesGo text).filterMap fun l =>
    if (stripWs l).isEmpty then none else parseLineToMed l

/-- First-seen deduplication by key, stated recursively: keep the head
and deduplicate the tail with every record of the same key removed. -/
def dedupByKey : List MedRec → List MedRec
  | [] => []
  | m :: ms => m :: dedupByKey (ms.filter fun x => !(medKey x == medKey m))
termination_by l => l.length
decreasing_by
  simp only [List.length_cons]
  have := List.length_filter_le (fun x => !(medKey x == medKey m)) ms
  omega

/-- Equation of `dedupByKey` on the empty list. -/
theorem dedupByKey_nil : dedupByKey [] = [] := by
  rw [dedupByKey]

/-- Equation of `dedupByKey` on a cons cell. -/
theorem dedupByKey_cons (m : MedRec) (ms : List MedRec) :
    dedupByKey (m :: ms) =
      m :: dedupByKey (ms.filter fun x => !(medKey x == medKey m)) := by
  rw [dedupByKey]

/-- Filtering by a freshly extended seen set is filtering by the old
set and then by the new key. -/
theorem filter_seen_cons (k : String × String × String)
    (seen : List (String × String × String)) (l : List MedRec) :
    l.filter (fun x => !((k :: seen).contains (medKey x))) =
      (l.filter (fun x => !(seen.contains (medKey x)))).filter
        (fun x => !(medKey x == k)) := by
  rw [List.filter_filter]
  apply List.filter_congr
  intro x _
  cases hxy : medKey x == k with
  | false =>
    have hne : medKey x ≠ k := by simpa using hxy
    simp [List.contains, List.elem_cons, hxy, hne]
  | true =>
    have heq : medKey x = k := by simpa using hxy
    simp [List.contains, List.elem_cons, hxy, heq]

/-- The extractor loop is first-seen deduplication of the parsed
records whose keys are not already in the seen set. -/
theorem extractMedsGo_eq :
    ∀ (ls : List (List Char)) (seen : List (String × String × String)),
      extractMedsGo ls seen =
        dedupByKey (((ls.filterMap fun l =>
          if (stripWs l).isEmpty then none else parseLineToMed l).filter
            (fun m => !(seen.contains (medKey m))))) := by
  intro ls
  induction ls with
  | nil =>
    intro seen
    simp [extractMedsGo, dedupByKey_nil]
  | cons l ls ih =>
    intro seen
    unfold extractMedsGo
    rw [List.filterMap_cons]
    by_cases hb : (stripWs l).isEmpty = true
    · rw [if_pos hb, if_pos hb]
      exact ih seen
    · rw [if_neg hb, if_neg hb]
      cases hp : parseLineToMed l with
      | none =>
        dsimp only
        exact ih seen
      | some m =>
        dsimp only
        rw [List.filter_cons]
        by_cases hs : seen.contains (medKey m) = true
        · rw [if_pos hs, if_neg (by rw [hs]; decide)]
          exact ih seen
        · have hs' : seen.contains (medKey m) = false := by
            revert hs
            cases seen.contains (medKey m) <;> simp
          rw [if_neg hs, if_pos (by rw [hs']; decide)]
          rw [dedupByKey_cons, ← filter_seen_cons (medKey m) seen]
          rw [ih (medKey m :: seen)]

/-- Records of the deduplicated list come from the original list, and
their keys are pairwise distinct. -/
theorem dedup_mem_nodup :
    ∀ (n : Nat) (l : List MedRec), l.length ≤ n →
      (∀ x ∈ dedupByKey l, x ∈ l) ∧ ((dedupByKey l).map medKey).Nodup := by
  intro n
  induction n with
  | zero =>
    intro l hl
    have hnil : l = [] := List.length_eq_zero.mp (Nat.le_zero.mp hl)
    subst hnil
    simp [dedupByKey_nil]
  | succ n ih =>
    intro l hl
    cases l with
    | nil => simp [dedupByKey_nil]
    | cons m ms =>
      rw [dedupByKey_cons]
      have hlen : (ms.filter fun x => !(medKey x == medKey m)).length ≤ n := by
        have h1 := List.length_filter_le (fun x => !(medKey x == medKey m)) ms
        have h2 : ms.length ≤ n := by
          simp only [List.length_cons] at hl
          omega
        omega
      obtain ⟨hmem, hnd⟩ := ih _ hlen
      constructor
      · intro x hx
        rcases List.mem_cons.mp hx with rfl | hx
        · exact List.mem_cons_self _ _
        · exact List.mem_cons_of_mem _ (List.mem_filter.mp (hmem x hx)).1
      · rw [List.map_cons]
        refine List.nodup_cons.mpr ⟨?_, hnd⟩
        intro hk
        obtain ⟨y, hy, hky⟩ := List.mem_map.mp hk
        have hy2 := (List.mem_filter.mp (hmem y hy)).2
        rw [hky] at hy2
        simp at hy2

/-- Claim C8: within one extraction result no two records share the
deduplication key (lowercased name, dose, frequency code), and the
result is exactly the first-seen deduplication, in line order, of the
records parsed from the non-blank lines. -/
theorem c8_dedup :
    ∀ text : String,
      (((extract_entities text).medications.map medKey).Nodup) ∧
      (extract_entities text).medications =
        dedupByKey (candidateRecords (S text)) := by
  intro text
  have he : (extract_entities text).medications =
      dedupByKey (candidateRecords (S text)) := by
    show extractMedsGo (splitLinesGo (S text)) [] = _
    rw [extractMedsGo_eq]
    unfold candidateRecords
    congr 1
    have ht : (fun m : MedRec =>
        !(([] : List (String × String × String)).contains (medKey m))) =
        fun _ => true := by
      funext m
      rfl
    rw [ht, List.filter_true]
  refine ⟨?_, he⟩
  rw [he]
  exact (dedup_mem_nodup (candidateRecords (S text)).length _ le_rfl).2

/-- Claim C9: extraction is total (every embedded function is total by
construction), the symptoms and diet components are empty for every
input, and the empty input yields an empty medications list as well. -/
theorem c9_total_and_empty :
    (∀ text : String,
      (extract_entities text).symptoms = [] ∧
        (extract_entities text).diet = []) ∧
    extract_entities "" =
      { medications := [], symptoms := [], diet := [] } := by
  exact ⟨fun _ => ⟨rfl, rfl⟩, rfl⟩

/-- Claim C10: for every record of every extraction, the dose field is
empty or number, space, lowercase unit with one to four integer digits
and at most two decimals, and the frequency field is empty or an
entirely uppercased match of the closed frequency pattern. -/
theorem c10_output_shape :
    ∀ (text : String) (m : MedRec),
      m ∈ (extract_entities text).medications →
        DoseFieldShape m.dose ∧ FreqFieldShape m.freq := by
  intro text m hm
  obtain ⟨l, hp⟩ := mem_extractMedsGo _ _ hm
  obtain ⟨hd, hf, _⟩ := parse_fields hp
  constructor
  · rw [hd]
    unfold DoseFieldShape
    cases hds : doseSearch (normalizeLine l) with
    | none =>
      left
      decide
    | some r =>
      right
      unfold doseSearch at hds
      obtain ⟨t, ht⟩ := doseSearchGo_some _ _ _ hds
      obtain ⟨⟨ip, fr, hnum, hipne, hiplen, hipall, hfr⟩, hunit⟩ :=
        tryDoseAt_shape ht
      refine ⟨ip, fr, lowerL r.2, ?_, hipne, hiplen, hipall, hfr, hunit⟩
      cases r with
      | mk n u =>
        show doseFmt (some (n, u)) = ip ++ fr ++ (' ' :: lowerL u)
        dsimp only [doseFmt]
        dsimp only at hnum
        rw [hnum, List.append_assoc]
  · rw [hf]
    unfold FreqFieldShape
    cases hfs : freqSearch (normalizeLine l) with
    | none =>
      left
      decide
    | some f0 =>
      right
      unfold freqSearch at hfs
      obtain ⟨t, ht⟩ := freqSearchGo_some _ _ _ hfs
      rcases freqTryAt_shape ht with hlit | ⟨ds, hq, hne, hall⟩
      · left
        show freqFmt (some f0) ∈ FREQ_LITS
        exact hlit
      · right
        exact ⟨ds, hq, hne, hall⟩

/-- Witness for claim C10: the demo Betaloc record has a well-shaped
dose of 100 mg and the closed-set code BID. -/
theorem c10_witness :
    DoseFieldShape medBetaloc.dose ∧ FreqFieldShape medBetaloc.freq :=
  c10_output_shape "Betaloc 100mg - 1 tab BID" medBetaloc (by decide)

end Medilex
